import Mathlib

/- Shallow embedding of the custom code of the azure-intro-tensorflow
   notebooks: the character tokenizer maps (`tokenizer.word_index` and its
   reverse map), the `decode`, `generate` and `generate_soft` functions of
   the text-generation notebook, the temperature rescaling used by
   `generate_soft`, the `to_bow` function and `BOWLayer` of the
   bag-of-words notebook, and the embedding-matrix population loop of the
   word-embeddings notebook.

   Token ids are `Nat`; network outputs are lists of rationals (exact
   stand-ins for the float tensors) except where the real-valued
   temperature rescaling itself is modelled, which uses `ℝ`.  The
   multinomial sampler `np.random.multinomial` is a library call reading
   the global NumPy RNG; it is modelled as an explicit parameter
   `sampler : Nat → List ℝ → Nat` giving the index drawn at each step from
   the rescaled distribution. -/

/-- The empty string, named so it can be used as a `getD` default. -/
def emptyStr : String := ""

/-- Lookup in `tokenizer.word_index`, modelled as an association list from
token strings to ids (dictionary keys are unique; `find?` takes the first
match). -/
def lookupW (wi : List (String × Nat)) (k : String) : Option Nat :=
  (wi.find? (fun p => p.1 == k)).map Prod.snd

/-- `tokenizer.texts_to_sequences([s])[0]` for a char-level tokenizer: each
character with an entry in `word_index` is mapped to its id, characters
without an entry are dropped. -/
def encode (wi : List (String × Nat)) (s : String) : List Nat :=
  s.data.filterMap (fun c => lookupW wi (String.singleton c))

/-- `reverse_map = {val:key for key, val in tokenizer.word_index.items()}`:
for duplicate values the last item wins, hence `find?` on the reversed
list. -/
def reverseMapOf (wi : List (String × Nat)) (t : Nat) : Option String :=
  (wi.reverse.find? (fun p => p.2 == t)).map Prod.fst

/-- `def decode(x): return ''.join([reverse_map.get(t,'') for t in x])`. -/
def decode (rm : Nat → Option String) (x : List Nat) : String :=
  String.join (x.map (fun t => (rm t).getD emptyStr))

/-- The word index after `tokenizer.word_index['<eos>'] = eos_token` with
`eos_token = len(tokenizer.word_index)+1`: the fitted char-level base map
extended with the `<eos>` entry. -/
def mkWordIndex (base : List (String × Nat)) : List (String × Nat) :=
  base ++ [("<eos>", base.length + 1)]

/-- `tf.argmax` on a vector: the first index attaining the maximum
(0 on the empty vector, where TensorFlow would error). -/
def argmaxIdx (l : List ℚ) : Nat :=
  match l.max? with
  | none => 0
  | some m => l.findIdx (fun x => x == m)

/-- The shared shape of the `generate` / `generate_soft` loops, with the
Python heap behaviour made explicit.  `chars = inp` aliases the seed list,
so on the first iteration (`aliased = true`) the `chars.append(nc)` is
seen by `inp` as well before `inp = inp + [nc]` rebinds `inp` to a fresh
list; from then on the two lists are distinct.  `next i inp` is the token
chosen at iteration `i` from the model run on `inp` (argmax for
`generate`, a multinomial draw for `generate_soft`).  Returns the final
`chars` list and the list of inputs fed to the model, in order. -/
def aliasLoop (next : Nat → List Nat → Nat) (eos : Nat) :
    Nat → Nat → List Nat → List Nat → Bool → List Nat × List (List Nat)
  | _, 0, chars, _, _ => (chars, [])
  | i, fuel+1, chars, inp, aliased =>
      let nc := next i inp
      if nc = eos then (chars, [inp])
      else
        let chars2 := chars ++ [nc]
        let inp2 := (if aliased then chars2 else inp) ++ [nc]
        let r := aliasLoop next eos (i+1) fuel chars2 inp2 false
        (r.1, inp :: r.2)

/-- Tokens produced by the loop once `chars` and `inp` no longer alias:
plain greedy accumulation `ctx, ctx ++ [nc], ...`. -/
def plainToks (next : Nat → List Nat → Nat) (eos : Nat) :
    Nat → Nat → List Nat → List Nat
  | _, 0, _ => []
  | i, fuel+1, ctx =>
      let nc := next i ctx
      if nc = eos then [] else nc :: plainToks next eos (i+1) fuel (ctx ++ [nc])

/-- Inputs fed to the model by the unaliased loop, in order (the breaking
iteration still runs the model once before stopping). -/
def plainFeds (next : Nat → List Nat → Nat) (eos : Nat) :
    Nat → Nat → List Nat → List (List Nat)
  | _, 0, _ => []
  | i, fuel+1, ctx =>
      let nc := next i ctx
      if nc = eos then [ctx] else ctx :: plainFeds next eos (i+1) fuel (ctx ++ [nc])

/-- Token-level body of `generate`: the loop of
`def generate(model,size=100,start='Today ')` run on an already-encoded
seed, choosing `nc = tf.argmax(out)` at each step. -/
def generateChars (model : List Nat → List ℚ) (eos size : Nat) (seed : List Nat) :
    List Nat :=
  (aliasLoop (fun _ inp => argmaxIdx (model inp)) eos 0 size seed seed true).1

/-- The sequence of inputs fed to the model during `generate`. -/
def generateFeds (model : List Nat → List ℚ) (eos size : Nat) (seed : List Nat) :
    List (List Nat) :=
  (aliasLoop (fun _ inp => argmaxIdx (model inp)) eos 0 size seed seed true).2

/-- `def generate(model,size,start)`: encode the seed, run the greedy loop,
decode the resulting `chars`. -/
def generate (wi : List (String × Nat)) (model : List Nat → List ℚ)
    (eos size : Nat) (start : String) : String :=
  decode (reverseMapOf wi) (generateChars model eos size (encode wi start))

/-- `probs = tf.exp(tf.math.log(out)/temperature)` followed by
`probs = probs/np.sum(probs)` (lines of `generate_soft`). -/
noncomputable def rescale (out : List ℝ) (temperature : ℝ) : List ℝ :=
  let probs := out.map (fun p => Real.exp (Real.log p / temperature))
  probs.map (fun x => x / probs.sum)

/-- The spec's formula for the temperature rescaling, stated with real
powers: `p_i ^ (1/T) / Σ p_j ^ (1/T)`.  Kept separate from `rescale`
(which follows the code) for the refinement claim. -/
noncomputable def rescaleSpec (out : List ℝ) (temperature : ℝ) : List ℝ :=
  out.map (fun p => p ^ (1 / temperature) /
    (out.map (fun q => q ^ (1 / temperature))).sum)

/-- Token-level body of `generate_soft`: at each step the model output is
rescaled by the temperature and one token is drawn from the rescaled
distribution by `np.argmax(np.random.multinomial(1,probs,1))`, modelled by
`sampler` applied to the step index and the rescaled distribution. -/
noncomputable def generateSoftChars (model : List Nat → List ℝ) (eos size : Nat)
    (seed : List Nat) (temperature : ℝ) (sampler : Nat → List ℝ → Nat) :
    List Nat :=
  (aliasLoop (fun i inp => sampler i (rescale (model inp) temperature))
    eos 0 size seed seed true).1

/-- The sequence of inputs fed to the model during `generate_soft`. -/
noncomputable def generateSoftFeds (model : List Nat → List ℝ) (eos size : Nat)
    (seed : List Nat) (temperature : ℝ) (sampler : Nat → List ℝ → Nat) :
    List (List Nat) :=
  (aliasLoop (fun i inp => sampler i (rescale (model inp) temperature))
    eos 0 size seed seed true).2

/-- `def generate_soft(model,size,start,temperature)`: encode the seed, run
the sampling loop, decode the resulting `chars`. -/
noncomputable def generate_soft (wi : List (String × Nat))
    (model : List Nat → List ℝ) (eos size : Nat) (start : String)
    (temperature : ℝ) (sampler : Nat → List ℝ → Nat) : String :=
  decode (reverseMapOf wi)
    (generateSoftChars model eos size (encode wi start) temperature sampler)

/-- `tf.one_hot(t, n)`: length-`n` vector with a single 1 at position `t`
when `t < n`, all zeros when `t` is out of range. -/
def oneHot (n : Nat) (t : Nat) : List ℚ :=
  (List.range n).map (fun j => if t = j then 1 else 0)

/-- Elementwise addition of vectors. -/
def vecAdd (a b : List ℚ) : List ℚ := List.zipWith (· + ·) a b

/-- `def to_bow(text): return tf.reduce_sum(tf.one_hot(vectorizer(text),
vocab_size),axis=0)`, on the token ids produced by the vectorizer: the sum
of the one-hot rows, zero vector for the empty sequence. -/
def to_bow (n : Nat) (ids : List Nat) : List ℚ :=
  (ids.map (oneHot n)).foldr vecAdd (List.replicate n 0)

/-- `class BOWLayer(keras.layers.Layer)` with its `vocab_size` field. -/
structure BOWLayer where
  vocab_size : Nat

/-- `BOWLayer.call(self,inp): return tf.reduce_sum(tf.one_hot(inp,
self.vocab_size),axis=1)`: per batch row, the sum of the one-hot rows of
that row's ids. -/
def BOWLayer.call (layer : BOWLayer) (inp : List (List Nat)) : List (List ℚ) :=
  inp.map (fun row =>
    (row.map (oneHot layer.vocab_size)).foldr vecAdd
      (List.replicate layer.vocab_size 0))

/-- The embedding-matrix population loop of the word-embeddings notebook:
`W = np.zeros(...)`, then for each vocabulary word `try: W[i] =
w2v.get_vector(w); found += 1 except: not_found += 1`.  `gv` models
`w2v.get_vector`, with `none` for a raised KeyError.  Returns the rows of
`W` and the pair `(found, not_found)`. -/
def populate (gv : String → Option (List ℚ)) (embedSize : Nat) :
    List String → List (List ℚ) × Nat × Nat
  | [] => ([], 0, 0)
  | w :: ws =>
      let r := populate gv embedSize ws
      match gv w with
      | some v => (v :: r.1, r.2.1 + 1, r.2.2)
      | none => (List.replicate embedSize 0 :: r.1, r.2.1, r.2.2 + 1)

/-- What the claim asserts the loop does: every exception raised by a
library call propagates unchanged, so the whole computation raises (is
`none`) as soon as one `get_vector` call fails, and otherwise every word is
found.  Written from the claim's words, for comparison with `populate`. -/
def populatePropagating (gv : String → Option (List ℚ))
    (vocab : List String) : Option (List (List ℚ) × Nat) :=
  (vocab.mapM gv).map (fun rows => (rows, vocab.length))

/- Helper lemmas.  None of these is a claim theorem; claim theorems apply
   them. -/

theorem argmaxIdx_isMax (l : List ℚ) (hne : l ≠ []) :
    argmaxIdx l < l.length ∧
      ∀ j, j < l.length → l.getD j 0 ≤ l.getD (argmaxIdx l) 0 := by
  cases h : l.max? with
  | none => exact absurd (List.max?_eq_none_iff.mp h) hne
  | some m =>
      have hmem : m ∈ l := List.max?_mem (fun a b => max_choice a b) h
      have hub : ∀ b ∈ l, b ≤ m :=
        (List.max?_le_iff (fun a b c => max_le_iff) h).mp le_rfl
      have hex : ∃ x ∈ l, (x == m) = true := ⟨m, hmem, by simp⟩
      have hlt : l.findIdx (fun x => x == m) < l.length :=
        List.findIdx_lt_length_of_exists hex
      have hidx : argmaxIdx l = l.findIdx (fun x => x == m) := by
        simp [argmaxIdx, h]
      have hval : l.getD (argmaxIdx l) 0 = m := by
        rw [hidx, List.getD_eq_getElem _ _ hlt]
        have := @List.findIdx_getElem _ (fun x => x == m) l hlt
        exact beq_iff_eq.mp this
      refine ⟨hidx ▸ hlt, fun j hj => ?_⟩
      rw [List.getD_eq_getElem _ _ hj, hval]
      exact hub _ (l.getElem_mem hj)

theorem aliasLoop_false (next : Nat → List Nat → Nat) (eos : Nat) :
    ∀ (fuel i : Nat) (chars inp : List Nat),
      aliasLoop next eos i fuel chars inp false
        = (chars ++ plainToks next eos i fuel inp,
           plainFeds next eos i fuel inp) := by
  intro fuel
  induction fuel with
  | zero => intro i chars inp; simp [aliasLoop, plainToks, plainFeds]
  | succ n ih =>
      intro i chars inp
      by_cases h : next i inp = eos
      · simp [aliasLoop, plainToks, plainFeds, h]
      · simp only [aliasLoop, plainToks, plainFeds, h, if_neg, if_false,
          Bool.false_eq_true, ite_false, ih]
        simp [List.append_assoc]

theorem aliasLoop_true_succ (next : Nat → List Nat → Nat) (eos fuel i : Nat)
    (seed : List Nat) :
    aliasLoop next eos i (fuel + 1) seed seed true
      = if next i seed = eos then (seed, [seed])
        else (seed ++ next i seed ::
                plainToks next eos (i+1) fuel (seed ++ [next i seed, next i seed]),
              seed :: plainFeds next eos (i+1) fuel
                (seed ++ [next i seed, next i seed])) := by
  by_cases h : next i seed = eos
  · simp [aliasLoop, h]
  · simp only [aliasLoop, h, if_false, Bool.false_eq_true, ite_false,
      ite_true, aliasLoop_false]
    simp [List.append_assoc]

/-- The generated tokens of a full (initially aliased) run of the loop. -/
def genToks (next : Nat → List Nat → Nat) (eos size : Nat) (seed : List Nat) :
    List Nat :=
  match size with
  | 0 => []
  | fuel+1 =>
      let nc := next 0 seed
      if nc = eos then []
      else nc :: plainToks next eos 1 fuel (seed ++ [nc, nc])

/-- The model inputs of a full (initially aliased) run of the loop. -/
def genFedsF (next : Nat → List Nat → Nat) (eos size : Nat) (seed : List Nat) :
    List (List Nat) :=
  match size with
  | 0 => []
  | fuel+1 =>
      let nc := next 0 seed
      if nc = eos then [seed]
      else seed :: plainFeds next eos 1 fuel (seed ++ [nc, nc])

theorem aliasLoop_true_eq (next : Nat → List Nat → Nat) (eos size : Nat)
    (seed : List Nat) :
    aliasLoop next eos 0 size seed seed true
      = (seed ++ genToks next eos size seed, genFedsF next eos size seed) := by
  cases size with
  | zero => simp [aliasLoop, genToks, genFedsF]
  | succ fuel =>
      rw [aliasLoop_true_succ]
      by_cases h : next 0 seed = eos
      · simp [genToks, genFedsF, h]
      · simp [genToks, genFedsF, h]

theorem plain_len (next : Nat → List Nat → Nat) (eos : Nat) :
    ∀ (fuel i : Nat) (ctx : List Nat),
      (plainToks next eos i fuel ctx).length
          ≤ (plainFeds next eos i fuel ctx).length ∧
        (plainFeds next eos i fuel ctx).length
          ≤ (plainToks next eos i fuel ctx).length + 1 ∧
        (plainFeds next eos i fuel ctx).length ≤ fuel := by
  intro fuel
  induction fuel with
  | zero => intro i ctx; simp [plainToks, plainFeds]
  | succ n ih =>
      intro i ctx
      by_cases h : next i ctx = eos
      · simp [plainToks, plainFeds, h]
      · have := ih (i+1) (ctx ++ [next i ctx])
        simp only [plainToks, plainFeds, h, if_false, ite_false,
          List.length_cons]
        omega

theorem plain_sel (next : Nat → List Nat → Nat) (eos : Nat) :
    ∀ (fuel i : Nat) (ctx : List Nat) (k : Nat),
      k < (plainToks next eos i fuel ctx).length →
        (plainToks next eos i fuel ctx).getD k 0
          = next (i + k) ((plainFeds next eos i fuel ctx).getD k []) := by
  intro fuel
  induction fuel with
  | zero => intro i ctx k hk; simp [plainToks] at hk
  | succ n ih =>
      intro i ctx k hk
      by_cases h : next i ctx = eos
      · simp [plainToks, h] at hk
      · simp only [plainToks, plainFeds, h, if_false, ite_false] at hk ⊢
        cases k with
        | zero => simp
        | succ k =>
            simp only [List.getD_cons_succ, List.length_cons,
              Nat.succ_lt_succ_iff] at hk ⊢
            rw [ih (i+1) (ctx ++ [next i ctx]) k hk]
            ring_nf

theorem plain_break (next : Nat → List Nat → Nat) (eos : Nat) :
    ∀ (fuel i : Nat) (ctx : List Nat),
      (plainFeds next eos i fuel ctx).length
          = (plainToks next eos i fuel ctx).length + 1 →
        next (i + (plainToks next eos i fuel ctx).length)
            ((plainFeds next eos i fuel ctx).getD
              (plainToks next eos i fuel ctx).length [])
          = eos := by
  intro fuel
  induction fuel with
  | zero => intro i ctx h; simp [plainToks, plainFeds] at h
  | succ n ih =>
      intro i ctx h
      by_cases hn : next i ctx = eos
      · simp [plainToks, plainFeds, hn]
      · simp only [plainToks, plainFeds, hn, if_false, ite_false,
          List.length_cons, Nat.succ_inj'] at h ⊢
        have := ih (i+1) (ctx ++ [next i ctx]) h
        simp only [List.getD_cons_succ]
        rw [show i + ((plainToks next eos (i+1) n (ctx ++ [next i ctx])).length + 1)
            = (i+1) + (plainToks next eos (i+1) n (ctx ++ [next i ctx])).length
          from by omega]
        exact this

theorem plain_fed_eq (next : Nat → List Nat → Nat) (eos : Nat) :
    ∀ (fuel i : Nat) (ctx : List Nat) (k : Nat),
      k < (plainFeds next eos i fuel ctx).length →
        (plainFeds next eos i fuel ctx).getD k []
          = ctx ++ (plainToks next eos i fuel ctx).take k := by
  intro fuel
  induction fuel with
  | zero => intro i ctx k hk; simp [plainFeds] at hk
  | succ n ih =>
      intro i ctx k hk
      by_cases h : next i ctx = eos
      · simp only [plainFeds, plainToks, h, if_true, ite_true,
          List.length_cons, List.length_nil] at hk ⊢
        interval_cases k
        · simp
      · simp only [plainFeds, plainToks, h, if_false, ite_false,
          List.length_cons] at hk ⊢
        cases k with
        | zero => simp
        | succ k =>
            simp only [List.getD_cons_succ, List.take_succ_cons,
              Nat.succ_lt_succ_iff] at hk ⊢
            rw [ih (i+1) (ctx ++ [next i ctx]) k hk]
            simp [List.append_assoc]

theorem plain_ne_eos (next : Nat → List Nat → Nat) (eos : Nat) :
    ∀ (fuel i : Nat) (ctx : List Nat) (t : Nat),
      t ∈ plainToks next eos i fuel ctx → t ≠ eos := by
  intro fuel
  induction fuel with
  | zero => intro i ctx t ht; simp [plainToks] at ht
  | succ n ih =>
      intro i ctx t ht
      by_cases h : next i ctx = eos
      · simp [plainToks, h] at ht
      · simp only [plainToks, h, if_false, ite_false, List.mem_cons] at ht
        rcases ht with rfl | ht
        · exact h
        · exact ih (i+1) (ctx ++ [next i ctx]) t ht

theorem genF_len (next : Nat → List Nat → Nat) (eos size : Nat)
    (seed : List Nat) :
    (genToks next eos size seed).length
        ≤ (genFedsF next eos size seed).length ∧
      (genFedsF next eos size seed).length
        ≤ (genToks next eos size seed).length + 1 ∧
      (genFedsF next eos size seed).length ≤ size := by
  cases size with
  | zero => simp [genToks, genFedsF]
  | succ fuel =>
      by_cases h : next 0 seed = eos
      · simp [genToks, genFedsF, h]
      · have := plain_len next eos fuel 1 (seed ++ [next 0 seed, next 0 seed])
        simp only [genToks, genFedsF, h, if_false, ite_false, List.length_cons]
        omega

theorem genF_sel (next : Nat → List Nat → Nat) (eos size : Nat)
    (seed : List Nat) :
    ∀ k, k < (genToks next eos size seed).length →
      (genToks next eos size seed).getD k 0
        = next k ((genFedsF next eos size seed).getD k []) := by
  intro k hk
  cases size with
  | zero => simp [genToks] at hk
  | succ fuel =>
      by_cases h : next 0 seed = eos
      · simp [genToks, h] at hk
      · simp only [genToks, genFedsF, h, if_false, ite_false,
          List.length_cons] at hk ⊢
        cases k with
        | zero => simp
        | succ k =>
            simp only [List.getD_cons_succ, Nat.succ_lt_succ_iff] at hk ⊢
            rw [plain_sel next eos fuel 1 (seed ++ [next 0 seed, next 0 seed]) k hk]
            ring_nf

theorem genF_break (next : Nat → List Nat → Nat) (eos size : Nat)
    (seed : List Nat) :
    (genFedsF next eos size seed).length
        = (genToks next eos size seed).length + 1 →
      next (genToks next eos size seed).length
          ((genFedsF next eos size seed).getD
            (genToks next eos size seed).length [])
        = eos := by
  intro h
  cases size with
  | zero => simp [genToks, genFedsF] at h
  | succ fuel =>
      by_cases hn : next 0 seed = eos
      · simp [genToks, genFedsF, hn]
      · simp only [genToks, genFedsF, hn, if_false, ite_false,
          List.length_cons, Nat.succ_inj'] at h ⊢
        have := plain_break next eos fuel 1 (seed ++ [next 0 seed, next 0 seed]) h
        simp only [List.getD_cons_succ]
        rw [Nat.add_comm 1 (plainToks next eos 1 fuel
          (seed ++ [next 0 seed, next 0 seed])).length] at this
        exact this

theorem genF_fed (next : Nat → List Nat → Nat) (eos size : Nat)
    (seed : List Nat) :
    ∀ k, 1 ≤ k → k < (genFedsF next eos size seed).length →
      (genFedsF next eos size seed).getD k []
        = seed ++ (genToks next eos size seed).getD 0 0
            :: (genToks next eos size seed).take k := by
  intro k hk1 hk
  cases size with
  | zero => simp [genFedsF] at hk
  | succ fuel =>
      by_cases h : next 0 seed = eos
      · simp only [genFedsF, h, if_true, ite_true, List.length_cons,
          List.length_nil] at hk
        omega
      · simp only [genToks, genFedsF, h, if_false, ite_false,
          List.length_cons] at hk ⊢
        cases k with
        | zero => omega
        | succ k =>
            simp only [List.getD_cons_succ, List.getD_cons_zero,
              List.take_succ_cons, Nat.succ_lt_succ_iff] at hk ⊢
            rw [plain_fed_eq next eos fuel 1
              (seed ++ [next 0 seed, next 0 seed]) k hk]
            simp [List.append_assoc]

theorem genF_ne_eos (next : Nat → List Nat → Nat) (eos size : Nat)
    (seed : List Nat) :
    ∀ t ∈ genToks next eos size seed, t ≠ eos := by
  intro t ht
  cases size with
  | zero => simp [genToks] at ht
  | succ fuel =>
      by_cases h : next 0 seed = eos
      · simp [genToks, h] at ht
      · simp only [genToks, h, if_false, ite_false, List.mem_cons] at ht
        rcases ht with rfl | ht
        · exact h
        · exact plain_ne_eos next eos fuel 1
            (seed ++ [next 0 seed, next 0 seed]) t ht

theorem genChars_take_drop (next : Nat → List Nat → Nat) (eos size : Nat)
    (seed : List Nat) :
    ((aliasLoop next eos 0 size seed seed true).1).take seed.length = seed ∧
      ((aliasLoop next eos 0 size seed seed true).1).drop seed.length
        = genToks next eos size seed := by
  rw [aliasLoop_true_eq]
  exact ⟨List.take_left seed _, List.drop_left seed _⟩

/- Claim theorems. -/

/-- C4: the plain `generate` function is greedy.  Every generated token
(the part of the returned `chars` after the seed) equals `argmaxIdx` of the
model's output on the input actually fed at that step — a highest-
probability index, never a sample — the loop stops early when that argmax
equals the end-of-sequence token, and at most `size` tokens are generated
in at most `size` model evaluations. -/
theorem generate_greedy_spec (model : List Nat → List ℚ) (eos size : Nat)
    (seed : List Nat) :
    (generateChars model eos size seed).take seed.length = seed ∧
    ((generateChars model eos size seed).drop seed.length).length ≤ size ∧
    (generateFeds model eos size seed).length ≤ size ∧
    (∀ k, k < ((generateChars model eos size seed).drop seed.length).length →
      ((generateChars model eos size seed).drop seed.length).getD k 0
        = argmaxIdx (model ((generateFeds model eos size seed).getD k []))) ∧
    ((generateFeds model eos size seed).length
        = ((generateChars model eos size seed).drop seed.length).length + 1 →
      argmaxIdx (model ((generateFeds model eos size seed).getD
        ((generateChars model eos size seed).drop seed.length).length []))
        = eos) ∧
    (∀ l : List ℚ, l ≠ [] → ∀ j, j < l.length →
      l.getD j 0 ≤ l.getD (argmaxIdx l) 0) := by
  have hC := genChars_take_drop (fun _ inp => argmaxIdx (model inp)) eos size seed
  have hG : generateChars model eos size seed
      = (aliasLoop (fun _ inp => argmaxIdx (model inp)) eos
          0 size seed seed true).1 := rfl
  have hF : generateFeds model eos size seed
      = genFedsF (fun _ inp => argmaxIdx (model inp)) eos size seed := by
    unfold generateFeds
    rw [aliasLoop_true_eq]
  rw [hG, hF, hC.1, hC.2]
  have hlen := genF_len (fun _ inp => argmaxIdx (model inp)) eos size seed
  refine ⟨rfl, by omega, by omega, ?_, ?_, ?_⟩
  · intro k hk
    exact genF_sel (fun _ inp => argmaxIdx (model inp)) eos size seed k hk
  · intro h
    exact genF_break (fun _ inp => argmaxIdx (model inp)) eos size seed h
  · intro l hne j hj
    exact (argmaxIdx_isMax l hne).2 j hj

/-- C2: `generate_soft` encodes the seed string to integer tokens and runs
a loop of at most `size` iterations; each iteration runs the model once on
the fed input, draws one token with a single sampler call on the rescaled
distribution, and appends exactly that token; the loop stops early when
the drawn token equals the end-of-sequence token, so there are at most
`size` model runs and samples in every execution. -/
theorem generate_soft_loop_spec (wi : List (String × Nat))
    (model : List Nat → List ℝ) (eos size : Nat) (start : String)
    (temperature : ℝ) (sampler : Nat → List ℝ → Nat) :
    generate_soft wi model eos size start temperature sampler
      = decode (reverseMapOf wi)
          (generateSoftChars model eos size (encode wi start)
            temperature sampler) ∧
    (generateSoftChars model eos size (encode wi start) temperature
        sampler).take (encode wi start).length = encode wi start ∧
    ((generateSoftChars model eos size (encode wi start) temperature
        sampler).drop (encode wi start).length).length ≤ size ∧
    (generateSoftFeds model eos size (encode wi start) temperature
        sampler).length ≤ size ∧
    (∀ k, k < ((generateSoftChars model eos size (encode wi start)
          temperature sampler).drop (encode wi start).length).length →
      ((generateSoftChars model eos size (encode wi start) temperature
          sampler).drop (encode wi start).length).getD k 0
        = sampler k (rescale (model ((generateSoftFeds model eos size
            (encode wi start) temperature sampler).getD k []))
            temperature)) ∧
    ((generateSoftFeds model eos size (encode wi start) temperature
          sampler).length
        = ((generateSoftChars model eos size (encode wi start) temperature
            sampler).drop (encode wi start).length).length + 1 →
      sampler ((generateSoftChars model eos size (encode wi start)
          temperature sampler).drop (encode wi start).length).length
        (rescale (model ((generateSoftFeds model eos size (encode wi start)
            temperature sampler).getD
          ((generateSoftChars model eos size (encode wi start) temperature
            sampler).drop (encode wi start).length).length []))
          temperature)
        = eos) := by
  set nx : Nat → List Nat → Nat :=
    fun i inp => sampler i (rescale (model inp) temperature) with hnx
  have hC := genChars_take_drop nx eos size (encode wi start)
  have hG : generateSoftChars model eos size (encode wi start)
        temperature sampler
      = (aliasLoop nx eos 0 size (encode wi start)
          (encode wi start) true).1 := rfl
  have hF : generateSoftFeds model eos size (encode wi start)
        temperature sampler
      = genFedsF nx eos size (encode wi start) := by
    unfold generateSoftFeds
    rw [hnx, aliasLoop_true_eq]
  rw [hG, hF, hC.1, hC.2]
  have hlen := genF_len nx eos size (encode wi start)
  refine ⟨rfl, rfl, by omega, by omega, ?_, ?_⟩
  · intro k hk
    exact genF_sel nx eos size (encode wi start) k hk
  · intro h
    exact genF_break nx eos size (encode wi start) h

theorem gen_seed_append (next : Nat → List Nat → Nat) (eos size : Nat)
    (seed : List Nat) :
    (aliasLoop next eos 0 size seed seed true).1
      = seed ++ ((aliasLoop next eos 0 size seed seed true).1).drop
          seed.length := by
  have h := genChars_take_drop next eos size seed
  conv_lhs => rw [← List.take_append_drop seed.length
    (aliasLoop next eos 0 size seed seed true).1]
  rw [h.1]

theorem gen_fed_formula (next : Nat → List Nat → Nat) (eos size : Nat)
    (seed : List Nat) :
    ∀ k, 1 ≤ k → k < (aliasLoop next eos 0 size seed seed true).2.length →
      (aliasLoop next eos 0 size seed seed true).2.getD k []
        = seed ++ (((aliasLoop next eos 0 size seed seed true).1).drop
              seed.length).getD 0 0
            :: (((aliasLoop next eos 0 size seed seed true).1).drop
              seed.length).take k := by
  rw [aliasLoop_true_eq]
  simp only [List.drop_left]
  exact genF_fed next eos size seed

theorem gen_chars_mem (next : Nat → List Nat → Nat) (eos size : Nat)
    (seed : List Nat) :
    ∀ t ∈ (aliasLoop next eos 0 size seed seed true).1,
      t ∈ seed ∨ t ≠ eos := by
  rw [aliasLoop_true_eq]
  intro t ht
  rcases List.mem_append.mp ht with h | h
  · exact Or.inl h
  · exact Or.inr (genF_ne_eos next eos size seed t h)

theorem encode_le_base (base : List (String × Nat))
    (hBase : ∀ p ∈ base, p.2 ≤ base.length) (s : String) :
    ∀ t ∈ encode (mkWordIndex base) s, t ≤ base.length := by
  intro t ht
  simp only [encode, List.mem_filterMap] at ht
  obtain ⟨c, -, hc⟩ := ht
  simp only [lookupW, mkWordIndex, List.find?_append, Option.map_eq_some'] at hc
  obtain ⟨pr, hpr, hpr2⟩ := hc
  rcases Option.or_eq_some.mp hpr with hfind | ⟨-, hfind⟩
  · have hm := List.mem_of_find?_eq_some hfind
    exact hpr2 ▸ hBase pr hm
  · have hm := List.mem_of_find?_eq_some hfind
    have hp := List.find?_some hfind
    simp only [List.mem_singleton] at hm
    rw [hm] at hp
    have : ("<eos>" : String) = String.singleton c := beq_iff_eq.mp hp
    have hlen := congrArg String.length this
    simp only [String.length_singleton] at hlen
    exact absurd hlen (by decide)

/-- C8: in both `generate` and `generate_soft`, `chars = inp` aliases the
seed list and the first iteration's append mutates the shared list before
`inp = inp + [nc]` rebinds `inp`; consequently, in every execution
producing at least two tokens, the input fed to the model at step
`k ≥ 2` (index `k ≥ 1` here) is the seed followed by the first generated
token twice and then each later generated token once, while the returned
`chars` list is the seed followed by each generated token exactly once. -/
theorem alias_feeds_first_token_twice (modelQ : List Nat → List ℚ)
    (modelR : List Nat → List ℝ) (eos size : Nat) (seed : List Nat)
    (temperature : ℝ) (sampler : Nat → List ℝ → Nat)
    (_h2 : 2 ≤ ((generateChars modelQ eos size seed).drop seed.length).length)
    (_h2s : 2 ≤ ((generateSoftChars modelR eos size seed temperature
        sampler).drop seed.length).length) :
    (generateChars modelQ eos size seed
        = seed ++ (generateChars modelQ eos size seed).drop seed.length) ∧
    (∀ k, 1 ≤ k → k < (generateFeds modelQ eos size seed).length →
      (generateFeds modelQ eos size seed).getD k []
        = seed ++ ((generateChars modelQ eos size seed).drop
              seed.length).getD 0 0
            :: ((generateChars modelQ eos size seed).drop
              seed.length).take k) ∧
    (generateSoftChars modelR eos size seed temperature sampler
        = seed ++ (generateSoftChars modelR eos size seed temperature
            sampler).drop seed.length) ∧
    (∀ k, 1 ≤ k →
        k < (generateSoftFeds modelR eos size seed temperature
          sampler).length →
      (generateSoftFeds modelR eos size seed temperature sampler).getD k []
        = seed ++ ((generateSoftChars modelR eos size seed temperature
              sampler).drop seed.length).getD 0 0
            :: ((generateSoftChars modelR eos size seed temperature
              sampler).drop seed.length).take k) :=
  ⟨gen_seed_append (fun _ inp => argmaxIdx (modelQ inp)) eos size seed,
   gen_fed_formula (fun _ inp => argmaxIdx (modelQ inp)) eos size seed,
   gen_seed_append
     (fun i inp => sampler i (rescale (modelR inp) temperature)) eos size seed,
   gen_fed_formula
     (fun i inp => sampler i (rescale (modelR inp) temperature)) eos size seed⟩

/-- C9: the end-of-sequence token never occurs in the token list returned
by `generate` or `generate_soft`: `nc == eos_token` is checked before the
append, and with `eos_token = len(word_index)+1` the char-level encoding of
the seed cannot contain it either (single characters never map to the
`<eos>` entry). -/
theorem eos_not_in_output (base : List (String × Nat))
    (modelQ : List Nat → List ℚ) (modelR : List Nat → List ℝ)
    (size : Nat) (start : String) (temperature : ℝ)
    (sampler : Nat → List ℝ → Nat)
    (hBase : ∀ p ∈ base, p.2 ≤ base.length) :
    (base.length + 1) ∉ generateChars modelQ (base.length + 1) size
        (encode (mkWordIndex base) start) ∧
    (base.length + 1) ∉ generateSoftChars modelR (base.length + 1) size
        (encode (mkWordIndex base) start) temperature sampler := by
  constructor
  · intro hmem
    rcases gen_chars_mem (fun _ inp => argmaxIdx (modelQ inp))
      (base.length + 1) size (encode (mkWordIndex base) start)
      (base.length + 1) hmem with h | h
    · exact absurd (encode_le_base base hBase start _ h) (by omega)
    · exact h rfl
  · intro hmem
    rcases gen_chars_mem
      (fun i inp => sampler i (rescale (modelR inp) temperature))
      (base.length + 1) size (encode (mkWordIndex base) start)
      (base.length + 1) hmem with h | h
    · exact absurd (encode_le_base base hBase start _ h) (by omega)
    · exact h rfl

theorem aliasLoop_congr (eos : Nat) :
    ∀ (fuel i : Nat) (chars inp : List Nat) (al : Bool)
      (n1 n2 : Nat → List Nat → Nat),
      (∀ j, i ≤ j → j < i + fuel → ∀ s, n1 j s = n2 j s) →
      aliasLoop n1 eos i fuel chars inp al
        = aliasLoop n2 eos i fuel chars inp al := by
  intro fuel
  induction fuel with
  | zero => intro i chars inp al n1 n2 h; simp [aliasLoop]
  | succ n ih =>
      intro i chars inp al n1 n2 h
      have hi : n1 i inp = n2 i inp := h i le_rfl (by omega) inp
      simp only [aliasLoop, hi]
      by_cases he : n2 i inp = eos
      · simp [he]
      · simp only [he, if_false, ite_false]
        rw [ih (i+1) (chars ++ [n2 i inp]) ((if al then chars ++ [n2 i inp]
            else inp) ++ [n2 i inp]) false n1 n2
          (fun j hj hj2 s => h j (by omega) (by omega) s)]

def strA : String := "a"

def strB : String := "b"

def strAA : String := "aa"

def strAB : String := "ab"

/-- C3 counterexample: with identical Python arguments (word index, model,
`eos_token`, `size`, seed string and temperature) and a model whose output
`[1, 1, 2]` is a nonempty positive vector — so the rescaled distribution
puts positive probability on indices 1 and 2 and the multinomial sampler
can genuinely return either — two executions of `generate_soft` whose
draws differ return different strings, so `generate_soft` is not a
deterministic function of its arguments. -/
theorem generate_soft_not_rng_independent :
    generate_soft [(strA, 1), (strB, 2)] (fun _ => [(1 : ℝ), 1, 2]) 3 1
        strA 1 (fun _ _ => 2)
      ≠ generate_soft [(strA, 1), (strB, 2)] (fun _ => [(1 : ℝ), 1, 2]) 3 1
        strA 1 (fun _ _ => 1) := by
  have h1 : generate_soft [(strA, 1), (strB, 2)] (fun _ => [(1 : ℝ), 1, 2])
      3 1 strA 1 (fun _ _ => 2) = strAB := rfl
  have h2 : generate_soft [(strA, 1), (strB, 2)] (fun _ => [(1 : ℝ), 1, 2])
      3 1 strA 1 (fun _ _ => 1) = strAA := rfl
  rw [h1, h2]
  decide

/-- C3 amended: `generate_soft` mutates no external state other than
consuming the global NumPy RNG, and its result is determined by its
arguments together with the sequence of multinomial draws: two runs with
the same model, size, seed string and temperature whose samplers agree on
the (at most `size`) draws actually taken return the same string. -/
theorem generate_soft_deterministic_given_draws (wi : List (String × Nat))
    (model : List Nat → List ℝ) (eos size : Nat) (start : String)
    (temperature : ℝ) (s1 s2 : Nat → List ℝ → Nat)
    (h : ∀ i, i < size → ∀ p, s1 i p = s2 i p) :
    generate_soft wi model eos size start temperature s1
      = generate_soft wi model eos size start temperature s2 := by
  unfold generate_soft generateSoftChars
  rw [aliasLoop_congr eos size 0 (encode wi start) (encode wi start) true
    (fun i inp => s1 i (rescale (model inp) temperature))
    (fun i inp => s2 i (rescale (model inp) temperature))
    (fun j _ hj s => h j (by omega) (rescale (model s) temperature))]

/-- Witness for C3's amended theorem: on a nonempty positive model output,
two samplers that agree on the single draw taken (step 0, drawing index 1)
but differ later give the same output. -/
theorem generate_soft_deterministic_given_draws_witness :
    generate_soft [(strA, 1)] (fun _ => [(1 : ℝ), 1, 2]) 2 1 strA 1
        (fun _ _ => 1)
      = generate_soft [(strA, 1)] (fun _ => [(1 : ℝ), 1, 2]) 2 1 strA 1
          (fun i _ => if 1 ≤ i then 2 else 1) :=
  generate_soft_deterministic_given_draws [(strA, 1)]
    (fun _ => [(1 : ℝ), 1, 2]) 2 1 strA 1 (fun _ _ => 1)
    (fun i _ => if 1 ≤ i then 2 else 1)
    (by intro i hi p; have hz : i = 0 := by omega
        subst hz; rfl)

/-- C1: the probability vector computed by `generate_soft` before sampling,
`exp(log(out)/T)` divided by its sum, equals the spec's rescaling
`p_i ^ (1/T) / Σ p_j ^ (1/T)` for every output vector with positive
entries and every temperature `T > 0`. -/
theorem rescale_eq_rescaleSpec (out : List ℝ) (temperature : ℝ)
    (hpos : ∀ p ∈ out, 0 < p) (_hT : 0 < temperature) :
    rescale out temperature = rescaleSpec out temperature := by
  unfold rescale rescaleSpec
  have hmap : out.map (fun p => Real.exp (Real.log p / temperature))
      = out.map (fun p => p ^ (1 / temperature)) := by
    apply List.map_congr_left
    intro p hp
    rw [Real.rpow_def_of_pos (hpos p hp)]
    congr 1
    ring
  rw [hmap, List.map_map]
  apply List.map_congr_left
  intro p _
  simp [Function.comp]

/-- Witness for C1 at the concrete vector `[1, 2]` and temperature `2`. -/
theorem rescale_eq_rescaleSpec_witness :
    rescale [(1 : ℝ), 2] 2 = rescaleSpec [(1 : ℝ), 2] 2 :=
  rescale_eq_rescaleSpec [(1 : ℝ), 2] 2
    (by rintro p hp; fin_cases hp <;> norm_num) (by norm_num)

/-- C7: temperature `1` is the identity of the rescaling, both for the
code's `exp(log(out)/1)` form and for the spec's power form: on a positive
vector it returns the vector divided by its sum, and on a positive vector
summing to `1` it returns the vector itself. -/
theorem rescale_temp_one_identity (out : List ℝ)
    (hpos : ∀ p ∈ out, 0 < p) :
    rescale out 1 = out.map (fun x => x / out.sum) ∧
    rescaleSpec out 1 = out.map (fun x => x / out.sum) ∧
    (out.sum = 1 → rescale out 1 = out ∧ rescaleSpec out 1 = out) := by
  have hprobs : out.map (fun p => Real.exp (Real.log p / 1)) = out := by
    calc out.map (fun p => Real.exp (Real.log p / 1))
        = out.map id := List.map_congr_left (fun p hp => by
          rw [id_eq, div_one, Real.exp_log (hpos p hp)])
      _ = out := List.map_id out
  have hpow : out.map (fun q => q ^ ((1 : ℝ) / 1)) = out := by
    calc out.map (fun q => q ^ ((1 : ℝ) / 1))
        = out.map id := List.map_congr_left (fun p _ => by
          norm_num)
      _ = out := List.map_id out
  have ha : rescale out 1 = out.map (fun x => x / out.sum) := by
    unfold rescale
    rw [hprobs]
  have hb : rescaleSpec out 1 = out.map (fun x => x / out.sum) := by
    unfold rescaleSpec
    rw [show (out.map fun p => p ^ ((1:ℝ) / 1) /
        (out.map fun q => q ^ ((1:ℝ) / 1)).sum)
      = (out.map fun p => p ^ ((1:ℝ) / 1)).map
          (fun x => x / (out.map fun q => q ^ ((1:ℝ) / 1)).sum) from by
        rw [List.map_map]; rfl]
    rw [hpow]
  refine ⟨ha, hb, fun hsum => ⟨?_, ?_⟩⟩
  · rw [ha, hsum]
    simp
  · rw [hb, hsum]
    simp

/-- Witness for C7 at the concrete probability vector `[1/4, 3/4]`. -/
theorem rescale_temp_one_identity_witness :
    rescale [(1 : ℝ)/4, 3/4] 1 = [(1 : ℝ)/4, 3/4]
      ∧ rescaleSpec [(1 : ℝ)/4, 3/4] 1 = [(1 : ℝ)/4, 3/4] :=
  ((rescale_temp_one_identity [(1 : ℝ)/4, 3/4]
      (by rintro p hp; fin_cases hp <;> norm_num)).2.2
    (by norm_num))

theorem join_foldl (l : List String) :
    ∀ a b : String,
      List.foldl (fun r t => r ++ t) (a ++ b) l
        = a ++ List.foldl (fun r t => r ++ t) b l := by
  induction l with
  | nil => intro a b; rfl
  | cons x xs ih =>
      intro a b
      simp only [List.foldl_cons]
      rw [String.append_assoc, ih]

theorem join_cons (s : String) (l : List String) :
    String.join (s :: l) = s ++ String.join l := by
  have h := join_foldl l s emptyStr
  rw [show s ++ emptyStr = s from String.append_empty s] at h
  calc String.join (s :: l)
      = List.foldl (fun r t => r ++ t) (emptyStr ++ s) l := rfl
    _ = List.foldl (fun r t => r ++ t) s l := by
        rw [show emptyStr ++ s = s from String.empty_append s]
    _ = s ++ List.foldl (fun r t => r ++ t) emptyStr l := h
    _ = s ++ String.join l := rfl

theorem decode_cons (rm : Nat → Option String) (t : Nat) (xs : List Nat) :
    decode rm (t :: xs) = (rm t).getD emptyStr ++ decode rm xs := by
  unfold decode
  rw [List.map_cons, join_cons]

theorem decode_filter_isSome (rm : Nat → Option String) :
    ∀ xs : List Nat,
      decode rm xs = decode rm (xs.filter (fun t => (rm t).isSome)) := by
  intro xs
  induction xs with
  | nil => rfl
  | cons t xs ih =>
      by_cases h : (rm t).isSome
      · rw [decode_cons]
        simp only [List.filter_cons, h, if_true]
        rw [decode_cons, ih]
      · have hn : rm t = none := Option.not_isSome_iff_eq_none.mp h
        rw [decode_cons, hn]
        simp only [List.filter_cons, hn, Option.isSome_none,
          Bool.false_eq_true, if_false, Option.getD_none]
        rw [← ih]
        exact String.empty_append _

/-- C10: `decode` is total on arbitrary token-id lists and never raises:
`reverse_map.get(t,'')` maps every id with no entry in the reverse map
(including the padding id 0, since all tokenizer ids are at least 1) to the
empty string, so out-of-vocabulary ids are silently dropped — filtering
them out of the input does not change the decoded string. -/
theorem decode_total_drops_unknown (wi : List (String × Nat))
    (xs : List Nat) :
    decode (reverseMapOf wi) xs
        = decode (reverseMapOf wi)
            (xs.filter (fun t => (reverseMapOf wi t).isSome)) ∧
    (∀ t, (∀ p ∈ wi, p.2 ≠ t) → reverseMapOf wi t = none) ∧
    (∀ t, reverseMapOf wi t = none →
      decode (reverseMapOf wi) (t :: xs) = decode (reverseMapOf wi) xs) ∧
    ((∀ p ∈ wi, 1 ≤ p.2) →
      reverseMapOf wi 0 = none ∧
      decode (reverseMapOf wi) (0 :: xs) = decode (reverseMapOf wi) xs) := by
  have hnone : ∀ t, (∀ p ∈ wi, p.2 ≠ t) → reverseMapOf wi t = none := by
    intro t ht
    have hfind : wi.reverse.find? (fun p => p.2 == t) = none :=
      List.find?_eq_none.mpr (by
        intro p hp
        simp only [beq_iff_eq]
        exact ht p (List.mem_reverse.mp hp))
    unfold reverseMapOf
    rw [hfind]
    rfl
  have hcons : ∀ t, reverseMapOf wi t = none →
      decode (reverseMapOf wi) (t :: xs) = decode (reverseMapOf wi) xs := by
    intro t hn
    rw [decode_cons, hn, Option.getD_none]
    exact String.empty_append _
  refine ⟨decode_filter_isSome _ xs, hnone, hcons, fun hge => ?_⟩
  have h0 : reverseMapOf wi 0 = none :=
    hnone 0 (fun p hp => by have := hge p hp; omega)
  exact ⟨h0, hcons 0 h0⟩

/-- Witness for C10 with the vocabulary entry `(a, 1)` and the input
`[0, 1, 5]`: id 0 has no reverse-map entry and is dropped. -/
theorem decode_total_drops_unknown_witness :
    reverseMapOf [(strA, 1)] 0 = none ∧
    decode (reverseMapOf [(strA, 1)]) (0 :: [0, 1, 5])
      = decode (reverseMapOf [(strA, 1)]) [0, 1, 5] :=
  (decode_total_drops_unknown [(strA, 1)] [0, 1, 5]).2.2.2 (by decide)

theorem oneHot_len (n t : Nat) : (oneHot n t).length = n := by
  simp [oneHot]

theorem oneHot_getD (n t j : Nat) (hj : j < n) :
    (oneHot n t).getD j 0 = if t = j then 1 else 0 := by
  rw [List.getD_eq_getElem _ _ (by rw [oneHot_len]; exact hj)]
  simp [oneHot]

theorem to_bow_len (n : Nat) : ∀ ids : List Nat, (to_bow n ids).length = n := by
  intro ids
  induction ids with
  | nil => simp [to_bow]
  | cons t ids ih =>
      rw [show to_bow n (t :: ids) = vecAdd (oneHot n t) (to_bow n ids)
        from rfl]
      rw [show vecAdd (oneHot n t) (to_bow n ids)
          = List.zipWith (· + ·) (oneHot n t) (to_bow n ids) from rfl]
      rw [List.length_zipWith, oneHot_len, ih, Nat.min_self]

theorem vecAdd_getD :
    ∀ (a b : List ℚ) (j : Nat), j < a.length → j < b.length →
      (vecAdd a b).getD j 0 = a.getD j 0 + b.getD j 0 := by
  intro a
  induction a with
  | nil => intro b j h1 h2; simp at h1
  | cons x xs ih =>
      intro b j h1 h2
      cases b with
      | nil => simp at h2
      | cons y ys =>
          cases j with
          | zero => rfl
          | succ j =>
              rw [show vecAdd (x :: xs) (y :: ys)
                  = (x + y) :: vecAdd xs ys from rfl,
                List.getD_cons_succ, List.getD_cons_succ,
                List.getD_cons_succ]
              exact ih ys j (by simpa using h1) (by simpa using h2)

theorem to_bow_getD (n j : Nat) (hj : j < n) :
    ∀ ids : List Nat, (to_bow n ids).getD j 0 = (ids.count j : ℚ) := by
  intro ids
  induction ids with
  | nil =>
      rw [show to_bow n [] = List.replicate n (0 : ℚ) from rfl]
      rw [List.getD_eq_getElem _ _ (by simpa using hj)]
      simp
  | cons t ids ih =>
      rw [show to_bow n (t :: ids) = vecAdd (oneHot n t) (to_bow n ids)
        from rfl]
      have hj1 : j < (oneHot n t).length := by rw [oneHot_len]; exact hj
      have hj2 : j < (to_bow n ids).length := by rw [to_bow_len]; exact hj
      rw [vecAdd_getD _ _ j hj1 hj2, oneHot_getD n t j hj, ih,
        List.count_cons]
      push_cast
      by_cases h : t = j
      · simp [h, add_comm]
      · simp [h]

/-- C5: the bag-of-words computation counts: `to_bow` returns a vector of
length `vocab_size` whose `j`-th component is the number of occurrences of
token id `j` in the sequence, for every `j < vocab_size` (out-of-range ids
contribute a zero one-hot row and hence to no component); `BOWLayer.call`
does the same for each batch row. -/
theorem to_bow_counts (n : Nat) (ids : List Nat) (batch : List (List Nat)) :
    (to_bow n ids).length = n ∧
    (∀ j, j < n → (to_bow n ids).getD j 0 = (ids.count j : ℚ)) ∧
    (BOWLayer.call ⟨n⟩ batch).length = batch.length ∧
    (∀ r, r < batch.length →
      ((BOWLayer.call ⟨n⟩ batch).getD r []).length = n ∧
      ∀ j, j < n → ((BOWLayer.call ⟨n⟩ batch).getD r []).getD j 0
        = ((batch.getD r []).count j : ℚ)) := by
  have hcall : BOWLayer.call ⟨n⟩ batch = batch.map (to_bow n) := rfl
  refine ⟨to_bow_len n ids, fun j hj => to_bow_getD n j hj ids, ?_, ?_⟩
  · rw [hcall, List.length_map]
  · intro r hr
    have hr2 : r < (batch.map (to_bow n)).length := by
      rw [List.length_map]; exact hr
    have hrow : (BOWLayer.call ⟨n⟩ batch).getD r []
        = to_bow n (batch.getD r []) := by
      rw [hcall, List.getD_eq_getElem _ _ hr2, List.getElem_map,
        List.getD_eq_getElem _ _ hr]
    rw [hrow]
    exact ⟨to_bow_len n _, fun j hj => to_bow_getD n j hj _⟩

/-- Witness for C5: in `[1, 1, 0, 5]` with `vocab_size = 2`, component 1
counts the two occurrences of token id 1. -/
theorem to_bow_counts_witness :
    (to_bow 2 [1, 1, 0, 5]).getD 1 0
      = (([1, 1, 0, 5] : List Nat).count 1 : ℚ) :=
  (to_bow_counts 2 [1, 1, 0, 5] []).2.1 1 (by decide)

/-- C6 counterexample: the embedding-matrix population loop does not let a
failing `get_vector` call propagate.  With a vocabulary of two words of
which the second has no vector, the claimed propagate-unchanged behaviour
(`populatePropagating`) raises (`none`), but the actual loop (`populate`)
completes normally, leaves the failed row zero and counts the failure in
`not_found`. -/
theorem populate_catches_failure :
    populatePropagating (fun w => if w == strA then some [(1 : ℚ)] else none)
        [strA, strB] = none ∧
    populate (fun w => if w == strA then some [(1 : ℚ)] else none) 1
        [strA, strB] = ([[(1 : ℚ)], [0]], 1, 1) := by
  constructor
  · rfl
  · rfl

/-- C6 amended: the embedding-matrix population loop catches every failure
of `get_vector` instead of propagating it: it always completes, produces
one row per vocabulary word, keeps the zero row for words whose lookup
fails, and counts successes and failures (`found + not_found` equals the
vocabulary size). -/
theorem populate_spec (gv : String → Option (List ℚ)) (n : Nat) :
    ∀ vocab : List String,
      (populate gv n vocab).1.length = vocab.length ∧
      (populate gv n vocab).2.1 + (populate gv n vocab).2.2
        = vocab.length ∧
      (populate gv n vocab).2.1
        = vocab.countP (fun w => (gv w).isSome) ∧
      ∀ i, i < vocab.length →
        (populate gv n vocab).1.getD i []
          = (gv (vocab.getD i emptyStr)).getD (List.replicate n 0) := by
  intro vocab
  induction vocab with
  | nil => simp [populate]
  | cons w ws ih =>
      obtain ⟨ihl, ihsum, ihcount, ihrow⟩ := ih
      cases hw : gv w with
      | some v =>
          simp only [populate, hw]
          refine ⟨by simp [ihl], by simp only [List.length_cons]; omega,
            ?_, ?_⟩
          · rw [List.countP_cons]
            simp [hw, ihcount]
          · intro i hi
            cases i with
            | zero => simp [hw]
            | succ i =>
                simp only [List.getD_cons_succ]
                exact ihrow i (by simpa using hi)
      | none =>
          simp only [populate, hw]
          refine ⟨by simp [ihl], by simp only [List.length_cons]; omega,
            ?_, ?_⟩
          · rw [List.countP_cons]
            simp [hw, ihcount]
          · intro i hi
            cases i with
            | zero => simp [hw]
            | succ i =>
                simp only [List.getD_cons_succ]
                exact ihrow i (by simpa using hi)

/-- Witness for C6's amended theorem: the failing word's row is the zero
row kept by the loop. -/
theorem populate_spec_witness :
    (populate (fun w => if w == strA then some [(1 : ℚ)] else none) 1
        [strA, strB]).1.getD 1 []
      = ((fun w => if w == strA then some [(1 : ℚ)] else none)
          (([strA, strB] : List String).getD 1 emptyStr)).getD
          (List.replicate 1 0) :=
  (populate_spec (fun w => if w == strA then some [(1 : ℚ)] else none) 1
    [strA, strB]).2.2.2 1 (by decide)

/-- Witness for C4: with a model that always outputs `[1, 2, 3]`, the first
generated token is the argmax (index 2) of the model output on the first
fed input. -/
theorem generate_greedy_spec_witness :
    ((generateChars (fun _ => [(1 : ℚ), 2, 3]) 5 2 [0]).drop
        ([0] : List Nat).length).getD 0 0
      = argmaxIdx ((fun _ => [(1 : ℚ), 2, 3])
          ((generateFeds (fun _ => [(1 : ℚ), 2, 3]) 5 2 [0]).getD 0 [])) :=
  (generate_greedy_spec (fun _ => [(1 : ℚ), 2, 3]) 5 2 [0]).2.2.2.1 0
    (by decide)

/-- Witness for C2: with a sampler that always draws index 2, the first
generated token is the token drawn at step 0 from the rescaled model
output on the first fed input. -/
theorem generate_soft_loop_spec_witness :
    ((generateSoftChars (fun _ => []) 9 2 (encode [(strA, 1)] strA) 1
        (fun _ _ => 2)).drop (encode [(strA, 1)] strA).length).getD 0 0
      = 2 :=
  (generate_soft_loop_spec [(strA, 1)] (fun _ => []) 9 2 strA 1
    (fun _ _ => 2)).2.2.2.2.1 0 (by decide)

/-- Witness for C8: a two-token greedy run from seed `[0]` feeds the model
`[0, 2, 2]` at the second step — the seed followed by the first generated
token twice. -/
theorem alias_feeds_first_token_twice_witness :
    (generateFeds (fun _ => [(1 : ℚ), 2, 3]) 5 2 [0]).getD 1 []
      = [0, 2, 2] :=
  (alias_feeds_first_token_twice (fun _ => [(1 : ℚ), 2, 3]) (fun _ => [])
    5 2 [0] 1 (fun _ _ => 2) (by decide) (by decide)).2.1 1
    (by decide) (by decide)

/-- Witness for C9 with the one-character base vocabulary `(a, 1)`:
`eos_token = 2` occurs in neither generation output. -/
theorem eos_not_in_output_witness :
    2 ∉ generateChars (fun _ => []) 2 1
        (encode (mkWordIndex [(strA, 1)]) strA) ∧
    2 ∉ generateSoftChars (fun _ => []) 2 1
        (encode (mkWordIndex [(strA, 1)]) strA) 1 (fun _ _ => 0) :=
  eos_not_in_output [(strA, 1)] (fun _ => []) (fun _ => []) 1 strA 1
    (fun _ _ => 0) (by decide)
